import Mathlib

/-!
# logStreamerWebSocket: a verification development of `main.go`

The program tails a file and broadcasts every newly appended block to all
connected websocket clients.  Three functions carry the behaviour:

* `tailFile` (lines 69-106): polls the file size and emits the new bytes;
* `broadcastMessages` (lines 53-66): writes every message to every registered
  client and prunes the clients whose write failed;
* `handleConnections` (lines 28-50): registers a client and blocks reading from
  it until a read error, then unregisters and closes it.

The file system, the network and the scheduler are the environment: each poll
cycle receives a `Poll` record saying what `Stat` and `Read` return, each
broadcast receives the outcome of every write, and an execution of the whole
program is a list of atomic `Action`s.
-/

namespace LogStreamer

/-! ## The file watcher (`tailFile`) -/

/-- One byte of file content.  Only equality of bytes and the zero byte of a
freshly made buffer matter below. -/
abbrev Byte := Nat

/-- A value sent on the `lines` channel: `string(buf)`, an arbitrary byte
sequence. -/
abbrev Message := List Byte

/-- The result of `file.Read(buf)`: the buffer afterwards, the count `n` and
the error.  The code ignores `n`. -/
structure ReadResult where
  buf : List Byte
  n : Nat
  eof : Bool
  deriving DecidableEq, Repr

/-- The most bytes one call of `(*os.File).Read` delivers: the Go runtime
cuts the buffer of a single read to `1 << 30` bytes (the constant `maxRW` of
its package `internal/poll`). -/
def maxRW : Nat := 2 ^ 30

/-- The `file.Seek(pos, io.SeekStart)` followed by the one `file.Read(buf)` of
line 95 with `buf := make([]byte, len)` on a regular file whose content is
`content`: the bytes available from `pos`, at most `len` and at most `maxRW`
of them, are copied to the front of the zero-filled buffer, the rest of the
buffer stays zero; with nothing available and a non-empty buffer the read
reports `io.EOF`. -/
def fileRead (content : List Byte) (pos len : Nat) : ReadResult :=
  let got := (content.drop pos).take (min len maxRW)
  { buf := got ++ List.replicate (len - got.length) 0
    n := got.length
    eof := decide (0 < len ∧ got.length = 0) }

/-- What the environment answers during the startup of `tailFile`
(lines 70-83). -/
structure Startup where
  /-- Whether `os.Open` returns an error. -/
  openFails : Bool
  /-- Whether the first `file.Stat()` returns an error. -/
  statFails : Bool
  /-- The `fi.Size()` of the first `file.Stat()`. -/
  size : Nat
  deriving DecidableEq, Repr

/-- What the environment answers during one cycle of the polling loop
(lines 86-104). -/
structure Poll where
  /-- Whether `file.Stat()` returns an error. -/
  statFails : Bool
  /-- The `fi.Size()` this cycle observes. -/
  statSize : Nat
  /-- Whether `file.Read` returns an error other than `io.EOF`. -/
  readFails : Bool
  /-- The content of the file when `file.Read` runs. -/
  content : List Byte
  deriving DecidableEq, Repr

/-- The state of `tailFile`: the local variable `offset`, the messages sent on
`lines` so far (oldest first), and whether `log.Fatalf` has ended the
process. -/
structure TailState where
  offset : Nat
  emitted : List Message
  fatal : Bool
  deriving DecidableEq, Repr

/-- One cycle of the loop of `tailFile` (lines 86-104).  After `log.Fatalf`
nothing runs any more. -/
def pollCycle (s : TailState) (p : Poll) : TailState :=
  if s.fatal then s
  else if p.statFails then { s with fatal := true }
  else if p.statSize > s.offset then
    let r := fileRead p.content s.offset (p.statSize - s.offset)
    if p.readFails then { s with fatal := true }
    else { s with emitted := s.emitted ++ [r.buf], offset := p.statSize }
  else s

/-- The loop of `tailFile` run over the poll cycles `polls`. -/
def tailLoop (s : TailState) (polls : List Poll) : TailState :=
  polls.foldl pollCycle s

/-- The function `tailFile` (lines 69-106) run for the poll cycles `polls`.
When `os.Open` or the first `Stat` fails the process ends before `offset` is
assigned; the field is 0 then. -/
def tailFile (st : Startup) (polls : List Poll) : TailState :=
  if st.openFails then { offset := 0, emitted := [], fatal := true }
  else if st.statFails then { offset := 0, emitted := [], fatal := true }
  else tailLoop { offset := st.size, emitted := [], fatal := false } polls

/-- The file is only appended to: no call fails, every cycle observes at least
the size of the content seen before, and the content read extends the content
seen before and covers the observed size.  The first argument is the content
seen last. -/
def GrowsByAppends : List Byte → List Poll → Prop
  | _, [] => True
  | prev, p :: ps =>
      p.statFails = false ∧ p.readFails = false ∧
      prev.length ≤ p.statSize ∧ p.statSize ≤ p.content.length ∧
      prev <+: p.content ∧ GrowsByAppends p.content ps

/-- Every growth between two polls fits in one read: starting from the offset
`o`, no cycle observes more than `maxRW` new bytes. -/
def WithinReadCap : Nat → List Poll → Prop
  | _, [] => True
  | o, p :: ps => p.statSize - o ≤ maxRW ∧ WithinReadCap p.statSize ps

/-- The poll after `maxRW + 1` bytes of value 1 have been appended to an empty
file: `Stat` reports the size `maxRW + 1` and the read sees all the bytes. -/
def largeAppend : Poll :=
  { statFails := false
    statSize := maxRW + 1
    readFails := false
    content := List.replicate (maxRW + 1) 1 }

/-- The content of the file at the last read, `c0` when no cycle ran. -/
def lastContent : List Byte → List Poll → List Byte
  | c0, [] => c0
  | _, p :: ps => lastContent p.content ps

/-- The size observed at the last poll, the startup size when no cycle ran. -/
def lastSize : Nat → List Poll → Nat
  | size0, [] => size0
  | _, p :: ps => lastSize p.statSize ps

/-- Two poll sequences that differ at most in the file bytes below position
`o`: the same answers of `Stat`, the same read errors, the same content from
`o` on. -/
def AgreeFrom (o : Nat) : List Poll → List Poll → Prop
  | [], [] => True
  | p :: ps, q :: qs =>
      p.statFails = q.statFails ∧ p.statSize = q.statSize ∧
      p.readFails = q.readFails ∧ p.content.drop o = q.content.drop o ∧
      AgreeFrom o ps qs
  | _, _ => False

/-! ## The registry, the broadcaster and the connection handler -/

/-- A client handle, the `*websocket.Conn` of one connection; two handles are
equal when they are the same connection. -/
abbrev Handle := Nat

/-- The three places of the program that call `Close` on a connection:
line 46 in the reader loop, the `defer` of line 34, and line 60 in
`broadcastMessages`. -/
inductive Closer where
  | readerLoop
  | deferred
  | broadcaster
  deriving DecidableEq, Repr

/-- What the program does to a connection: a `WriteMessage` of a text frame
with its outcome, or a `Close`. -/
inductive ConnEvent where
  | write (c : Handle) (msg : Message) (ok : Bool)
  | close (c : Handle) (who : Closer)
  deriving DecidableEq, Repr

/-- The statement `clients[c] = true` on the keys of the map `clients`: a key
that is present stays where it is, a new key is added. -/
def clientsAdd (c : Handle) (clients : List Handle) : List Handle :=
  if c ∈ clients then clients else clients ++ [c]

/-- The statement `delete(clients, c)` on the keys of the map `clients`. -/
def clientsDelete (c : Handle) (clients : List Handle) : List Handle :=
  clients.filter (fun x => decide (x ≠ c))

/-- Where the goroutine of `handleConnections` for one connection stands:
not started, blocked in `ReadMessage` (lines 41-42), past the `delete` of
lines 43-45, past the `Close` of line 46, returned (the deferred `Close` of
line 34 has run). -/
inductive ReaderPc where
  | idle
  | reading
  | deleted
  | closed
  | returned
  deriving DecidableEq, Repr

/-- The state of the server: the keys of the map `clients` (the order of the
list is the order in which `range` visits them, which Go leaves open), every
`WriteMessage` and `Close` performed so far, oldest first, and the position of
each connection handler. -/
structure Server where
  clients : List Handle
  log : List ConnEvent
  pc : Handle → ReaderPc

/-- The loop `for client := range clients` of lines 57-63 over the keys `ks`
still to visit.  A key deleted from the map before it is reached is not
visited. -/
def rangeClients (msg : Message) (writeOk : Handle → Bool) : List Handle → Server → Server
  | [], s => s
  | c :: rest, s =>
      if c ∈ s.clients then
        if writeOk c then
          rangeClients msg writeOk rest { s with log := s.log ++ [ConnEvent.write c msg true] }
        else
          rangeClients msg writeOk rest
            { s with
              log := s.log ++ [ConnEvent.write c msg false, ConnEvent.close c Closer.broadcaster]
              clients := clientsDelete c s.clients }
      else rangeClients msg writeOk rest s

/-- One iteration of the loop of `broadcastMessages` (lines 55-64) for the
message `msg` received from `lines`; `writeOk c` says whether the
`WriteMessage` to `c` returns no error.  The whole iteration holds `mu`. -/
def broadcastMessages (msg : Message) (writeOk : Handle → Bool) (s : Server) : Server :=
  rangeClients msg writeOk s.clients s

/-- The atomic steps of the server.  The steps of `handleConnections` for the
connection `c` are: the upgrade and the registration under `mu`
(lines 29-38); one `ReadMessage`, followed on an error by the `delete` under
`mu` (lines 42-45); the `Close` and `break` of lines 46-47; the deferred
`Close` of line 34 when the function returns.  A broadcast is one iteration
of `broadcastMessages`; `failing` lists the connections whose write
fails.  The return of `Upgrade` and of `ReadMessage` touches no shared state,
so each is merged with the critical section that follows it; a request whose
upgrade fails (lines 30-33) creates no handle and is no step.  The two `Close`
calls of a handler run outside `mu`; they change nothing but the log, so an
iteration of the broadcaster is taken as one step. -/
inductive Action where
  | connect (c : Handle)
  | readMessage (c : Handle) (err : Bool)
  | closeAfterRead (c : Handle)
  | deferredClose (c : Handle)
  | broadcast (msg : Message) (failing : List Handle)
  deriving DecidableEq, Repr

/-- One step of the server.  A step of a handler that is not at the matching
position does not happen. -/
def step (s : Server) : Action → Server
  | Action.connect c =>
      if s.pc c = ReaderPc.idle then
        { s with clients := clientsAdd c s.clients, pc := Function.update s.pc c ReaderPc.reading }
      else s
  | Action.readMessage c err =>
      if s.pc c = ReaderPc.reading then
        if err then
          { s with
            clients := clientsDelete c s.clients
            pc := Function.update s.pc c ReaderPc.deleted }
        else s
      else s
  | Action.closeAfterRead c =>
      if s.pc c = ReaderPc.deleted then
        { s with
          log := s.log ++ [ConnEvent.close c Closer.readerLoop]
          pc := Function.update s.pc c ReaderPc.closed }
      else s
  | Action.deferredClose c =>
      if s.pc c = ReaderPc.closed then
        { s with
          log := s.log ++ [ConnEvent.close c Closer.deferred]
          pc := Function.update s.pc c ReaderPc.returned }
      else s
  | Action.broadcast msg failing =>
      broadcastMessages msg (fun c => decide (c ∉ failing)) s

/-- The server after the steps `acts`. -/
def run (s : Server) (acts : List Action) : Server :=
  acts.foldl step s

/-- The server at startup: the map `clients` is empty and no handler runs. -/
def init : Server :=
  { clients := [], log := [], pc := fun _ => ReaderPc.idle }

/-- The messages of the write attempts to `c` in a log, in order. -/
def writesTo (c : Handle) (log : List ConnEvent) : List Message :=
  log.filterMap fun e =>
    match e with
    | ConnEvent.write c1 m _ => if c1 = c then some m else none
    | ConnEvent.close _ _ => none

/-- The frames written to `c` in a log: the messages of the writes that
succeeded, in order. -/
def framesTo (c : Handle) (log : List ConnEvent) : List Message :=
  log.filterMap fun e =>
    match e with
    | ConnEvent.write c1 m ok => if c1 = c ∧ ok = true then some m else none
    | ConnEvent.close _ _ => none

/-- The callers of `Close` on `c` in a log, in order. -/
def closesOf (c : Handle) (log : List ConnEvent) : List Closer :=
  log.filterMap fun e =>
    match e with
    | ConnEvent.write _ _ _ => none
    | ConnEvent.close c1 who => if c1 = c then some who else none

/-- The steps in which no client disconnects and every write succeeds. -/
def Quiet : Action → Bool
  | Action.connect _ => true
  | Action.readMessage _ err => !err
  | Action.closeAfterRead _ => false
  | Action.deferredClose _ => false
  | Action.broadcast _ failing => failing.isEmpty

/-- The messages broadcast in `acts`, in order. -/
def broadcastsOf : List Action → List Message
  | [] => []
  | Action.broadcast msg _ :: rest => msg :: broadcastsOf rest
  | _ :: rest => broadcastsOf rest

/-- The messages broadcast in `acts` after the registration of `c`, in order;
none when `c` never registers. -/
def broadcastsAfterJoin (c : Handle) : List Action → List Message
  | [] => []
  | Action.connect c1 :: rest =>
      if c1 = c then broadcastsOf rest else broadcastsAfterJoin c rest
  | _ :: rest => broadcastsAfterJoin c rest


/-- The events one visit of the `range` loop appends to the log (lines 58-62):
the write, and after a failed write the `Close`.  Used to state what
`rangeClients` appends. -/
def visitEvents (msg : Message) (writeOk : Handle → Bool) (c : Handle) : List ConnEvent :=
  if writeOk c then [ConnEvent.write c msg true]
  else [ConnEvent.write c msg false, ConnEvent.close c Closer.broadcaster]

/-- What holds of a handle `c` in every reachable state: a registered handle
has its handler blocked in `ReadMessage`; the reader loop has closed it once
exactly when the handler is past line 46; the deferred `Close` has run once
exactly when the handler has returned; the broadcaster has closed it at most
once and only after it left the registry; nobody has closed it before its
handler started. -/
def LifecycleInv (s : Server) (c : Handle) : Prop :=
  (c ∈ s.clients → s.pc c = ReaderPc.reading) ∧
  (closesOf c s.log).count Closer.readerLoop =
    (if s.pc c = ReaderPc.closed ∨ s.pc c = ReaderPc.returned then 1 else 0) ∧
  (closesOf c s.log).count Closer.deferred =
    (if s.pc c = ReaderPc.returned then 1 else 0) ∧
  (closesOf c s.log).count Closer.broadcaster + (if c ∈ s.clients then 1 else 0) ≤ 1 ∧
  (s.pc c = ReaderPc.idle → closesOf c s.log = [])

/-! ## Properties of the file watcher -/

theorem fileRead_buf_length (c : List Byte) (pos len : Nat) :
    (fileRead c pos len).buf.length = len := by
  simp only [fileRead, List.length_append, List.length_replicate, List.length_take]
  omega

theorem fileRead_full (c : List Byte) (pos len : Nat) (h : pos + len ≤ c.length)
    (hcap : len ≤ maxRW) : (fileRead c pos len).buf = (c.drop pos).take len := by
  simp only [fileRead, Nat.min_eq_left hcap]
  have e : len - ((c.drop pos).take len).length = 0 := by
    simp only [List.length_take, List.length_drop]
    omega
  rw [e]
  simp

theorem fileRead_capped (c : List Byte) (pos len : Nat) (h : pos + len ≤ c.length)
    (hcap : maxRW < len) :
    (fileRead c pos len).buf =
      (c.drop pos).take maxRW ++ List.replicate (len - maxRW) 0 := by
  simp only [fileRead, Nat.min_eq_right (Nat.le_of_lt hcap)]
  have e : ((c.drop pos).take maxRW).length = maxRW := by
    simp only [List.length_take, List.length_drop]
    omega
  rw [e]

theorem fileRead_congr (o pos len : Nat) (c d : List Byte) (hpos : o ≤ pos)
    (h : c.drop o = d.drop o) : fileRead c pos len = fileRead d pos len := by
  have e : c.drop pos = d.drop pos := by
    have h1 : c.drop pos = (c.drop o).drop (pos - o) := by
      rw [List.drop_drop]; congr 1; omega
    have h2 : d.drop pos = (d.drop o).drop (pos - o) := by
      rw [List.drop_drop]; congr 1; omega
    rw [h1, h2, h]
  simp [fileRead, e]

theorem tailLoop_nil (s : TailState) : tailLoop s [] = s := rfl

theorem tailLoop_cons (s : TailState) (p : Poll) (ps : List Poll) :
    tailLoop s (p :: ps) = tailLoop (pollCycle s p) ps := rfl

theorem tailLoop_append (s : TailState) (ps qs : List Poll) :
    tailLoop s (ps ++ qs) = tailLoop (tailLoop s ps) qs := by
  simp [tailLoop, List.foldl_append]

theorem pollCycle_fatal (s : TailState) (p : Poll) (h : s.fatal = true) :
    pollCycle s p = s := by
  simp [pollCycle, h]

theorem tailLoop_fatal (s : TailState) (ps : List Poll) (h : s.fatal = true) :
    tailLoop s ps = s := by
  induction ps with
  | nil => rfl
  | cons p ps ih => rw [tailLoop_cons, pollCycle_fatal s p h, ih]

theorem pollCycle_offset_le (s : TailState) (p : Poll) :
    s.offset ≤ (pollCycle s p).offset := by
  unfold pollCycle
  split_ifs <;> simp
  omega

theorem tailLoop_offset_le (s : TailState) (ps : List Poll) :
    s.offset ≤ (tailLoop s ps).offset := by
  induction ps generalizing s with
  | nil => exact Nat.le_refl _
  | cons p ps ih =>
      rw [tailLoop_cons]
      exact Nat.le_trans (pollCycle_offset_le s p) (ih _)

theorem pollCycle_emitted_extends (s : TailState) (p : Poll) :
    s.emitted <+: (pollCycle s p).emitted := by
  unfold pollCycle
  split_ifs <;> simp

theorem tailLoop_emitted_extends (s : TailState) (ps : List Poll) :
    s.emitted <+: (tailLoop s ps).emitted := by
  induction ps generalizing s with
  | nil => exact ⟨[], List.append_nil _⟩
  | cons p ps ih =>
      rw [tailLoop_cons]
      exact List.IsPrefix.trans (pollCycle_emitted_extends s p) (ih _)

theorem pollCycle_emitted_nonempty (s : TailState) (p : Poll)
    (h : ∀ m ∈ s.emitted, 0 < m.length) :
    ∀ m ∈ (pollCycle s p).emitted, 0 < m.length := by
  unfold pollCycle
  split_ifs with h1 h2 h3 h4
  · exact h
  · exact h
  · exact h
  · intro m hm
    simp only [List.mem_append, List.mem_singleton] at hm
    rcases hm with hm | hm
    · exact h m hm
    · rw [hm, fileRead_buf_length]; omega
  · exact h

theorem tailLoop_emitted_nonempty (s : TailState) (ps : List Poll)
    (h : ∀ m ∈ s.emitted, 0 < m.length) :
    ∀ m ∈ (tailLoop s ps).emitted, 0 < m.length := by
  induction ps generalizing s with
  | nil => exact h
  | cons p ps ih =>
      rw [tailLoop_cons]
      exact ih _ (pollCycle_emitted_nonempty s p h)

theorem tailFile_emitted_nonempty (st : Startup) (ps : List Poll) :
    ∀ m ∈ (tailFile st ps).emitted, 0 < m.length := by
  unfold tailFile
  split_ifs
  · simp
  · simp
  · exact tailLoop_emitted_nonempty _ ps (by simp)

theorem growsByAppends_extends (prev : List Byte) (ps : List Poll)
    (h : GrowsByAppends prev ps) : prev <+: lastContent prev ps := by
  induction ps generalizing prev with
  | nil => exact ⟨[], List.append_nil _⟩
  | cons p ps ih =>
      obtain ⟨_, _, _, _, hp, hrest⟩ := h
      exact List.IsPrefix.trans hp (ih _ hrest)

theorem growsByAppends_size (prev : List Byte) (o : Nat) (ps : List Poll)
    (h : GrowsByAppends prev ps) (ho : o ≤ prev.length) :
    o ≤ lastSize o ps ∧ lastSize o ps ≤ (lastContent prev ps).length := by
  induction ps generalizing prev o with
  | nil => exact ⟨Nat.le_refl _, ho⟩
  | cons p ps ih =>
      obtain ⟨_, _, h1, h2, _, hrest⟩ := h
      have := ih p.content p.statSize hrest h2
      exact ⟨by simp only [lastSize]; omega, this.2⟩

theorem take_drop_of_extends (c l : List Byte) (o n : Nat) (hp : c <+: l)
    (h : o + n ≤ c.length) : (c.drop o).take n = (l.drop o).take n := by
  obtain ⟨t, rfl⟩ := hp
  rw [List.drop_append_of_le_length (by omega), List.take_append_of_le_length]
  simp; omega

theorem tailLoop_grows (prev : List Byte) (ps : List Poll) (s : TailState)
    (h : GrowsByAppends prev ps) (hcap : WithinReadCap s.offset ps)
    (hf : s.fatal = false) (ho : s.offset ≤ prev.length) :
    (tailLoop s ps).fatal = false ∧
    (tailLoop s ps).offset = lastSize s.offset ps ∧
    (tailLoop s ps).emitted.flatten = s.emitted.flatten ++
      ((lastContent prev ps).drop s.offset).take (lastSize s.offset ps - s.offset) := by
  induction ps generalizing prev s with
  | nil => simp [tailLoop, lastSize, hf]
  | cons p ps ih =>
      obtain ⟨h1, h2, h3, h4, hp, hrest⟩ := h
      obtain ⟨hc1, hcrest⟩ := hcap
      rw [tailLoop_cons]
      have hpre := growsByAppends_extends _ _ hrest
      have hsz := growsByAppends_size p.content p.statSize ps hrest h4
      by_cases hgt : p.statSize > s.offset
      · have hs : pollCycle s p =
            { s with emitted := s.emitted ++ [(fileRead p.content s.offset (p.statSize - s.offset)).buf],
                     offset := p.statSize } := by
          simp [pollCycle, hf, h1, h2, hgt]
        obtain ⟨i1, i2, i3⟩ := ih p.content (pollCycle s p) hrest (by rw [hs]; exact hcrest)
          (by rw [hs]; exact hf) (by rw [hs]; exact h4)
        refine ⟨i1, ?_, ?_⟩
        · rw [i2, hs]; rfl
        · rw [i3, hs]
          simp only [lastSize, lastContent, List.flatten_append, List.flatten_cons, List.flatten_nil,
            List.append_nil, List.append_assoc]
          congr 1
          rw [fileRead_full _ _ _ (by omega) hc1,
            take_drop_of_extends p.content (lastContent p.content ps) _ _ hpre (by omega)]
          have e : lastSize p.statSize ps - s.offset =
              (p.statSize - s.offset) + (lastSize p.statSize ps - p.statSize) := by omega
          rw [e, List.take_add, List.drop_drop]
          congr 3
          omega
      · have he : p.statSize = s.offset := by omega
        have hs : pollCycle s p = s := by
          simp [pollCycle, hf, h1, hgt]
        obtain ⟨i1, i2, i3⟩ := ih p.content s hrest (by rw [← he]; exact hcrest) hf (by omega)
        rw [hs]
        refine ⟨i1, ?_, ?_⟩
        · rw [i2]; simp [lastSize, he]
        · rw [i3]; simp [lastSize, lastContent, he]

theorem tailFile_snoc (st : Startup) (polls : List Poll) (p : Poll) :
    tailFile st (polls ++ [p]) = pollCycle (tailFile st polls) p := by
  unfold tailFile
  split_ifs
  · rfl
  · rfl
  · rw [tailLoop_append]; rfl

theorem tailFile_append (st : Startup) (polls more : List Poll) :
    tailFile st (polls ++ more) = tailLoop (tailFile st polls) more := by
  unfold tailFile
  split_ifs
  · rw [tailLoop_fatal _ _ rfl]
  · rw [tailLoop_fatal _ _ rfl]
  · rw [tailLoop_append]

theorem pollCycle_agree (o : Nat) (s : TailState) (p q : Poll) (ho : o ≤ s.offset)
    (h1 : p.statFails = q.statFails) (h2 : p.statSize = q.statSize)
    (h3 : p.readFails = q.readFails) (h4 : p.content.drop o = q.content.drop o) :
    pollCycle s p = pollCycle s q := by
  unfold pollCycle
  rw [h1, h2, h3, fileRead_congr o s.offset _ p.content q.content ho h4]

theorem tailLoop_agree (o : Nat) (s : TailState) (ps qs : List Poll) (ho : o ≤ s.offset)
    (h : AgreeFrom o ps qs) : tailLoop s ps = tailLoop s qs := by
  induction ps generalizing s qs with
  | nil =>
      cases qs with
      | nil => rfl
      | cons q qs => exact absurd h (by simp [AgreeFrom])
  | cons p ps ih =>
      cases qs with
      | nil => exact absurd h (by simp [AgreeFrom])
      | cons q qs =>
          obtain ⟨h1, h2, h3, h4, hrest⟩ := h
          rw [tailLoop_cons, tailLoop_cons, pollCycle_agree o s p q ho h1 h2 h3 h4]
          exact ih _ _ (Nat.le_trans ho (pollCycle_offset_le s q)) hrest

/-- When the file is cut short between `Stat` and `Read`, the read returns
`io.EOF`, which line 96 lets pass: the cycle sends the zero-filled buffer and
advances the offset. -/
theorem pollCycle_eof_sends_zero_bytes :
    (fileRead [1, 2] 3 2).eof = true ∧
      pollCycle { offset := 3, emitted := [], fatal := false } ⟨false, 5, false, [1, 2]⟩ =
        { offset := 5, emitted := [[0, 0]], fatal := false } := by
  decide

/-! ## The claims about the file watcher -/

/-- While every growth between two polls fits in one read (at most `maxRW`
bytes), the file only grows by appends and no call fails, the messages
`tailFile` sends, concatenated in emission order, are exactly the bytes of the
file from the size recorded at startup up to the size observed at the last
poll; the watcher is still running and its offset is that last size. -/
theorem tailFile_emits_appended_bytes_within_cap (c0 : List Byte) (st : Startup)
    (polls : List Poll) (hopen : st.openFails = false) (hstat : st.statFails = false)
    (hsize : st.size = c0.length) (hgrow : GrowsByAppends c0 polls)
    (hcap : WithinReadCap st.size polls) :
    (tailFile st polls).emitted.flatten =
        ((lastContent c0 polls).drop st.size).take (lastSize st.size polls - st.size) ∧
      (tailFile st polls).offset = lastSize st.size polls ∧
      (tailFile st polls).fatal = false := by
  have h := tailLoop_grows c0 polls { offset := st.size, emitted := [], fatal := false }
    hgrow hcap rfl (by simp [hsize])
  simp only [tailFile, hopen, hstat, Bool.false_eq_true, if_false]
  obtain ⟨a, b, c⟩ := h
  exact ⟨by simpa using c, b, a⟩

/-- A file of 3 bytes that grows to 6 and then to 7 bytes: the bytes 4 to 7 are
sent. -/
theorem tailFile_emits_appended_bytes_within_cap_witness :
    (tailFile ⟨false, false, 3⟩
        [⟨false, 5, false, [1, 2, 3, 4, 5, 6]⟩, ⟨false, 7, false, [1, 2, 3, 4, 5, 6, 7]⟩]).emitted.flatten
        = [4, 5, 6, 7] ∧
      (tailFile ⟨false, false, 3⟩
        [⟨false, 5, false, [1, 2, 3, 4, 5, 6]⟩, ⟨false, 7, false, [1, 2, 3, 4, 5, 6, 7]⟩]).offset = 7 ∧
      (tailFile ⟨false, false, 3⟩
        [⟨false, 5, false, [1, 2, 3, 4, 5, 6]⟩, ⟨false, 7, false, [1, 2, 3, 4, 5, 6, 7]⟩]).fatal = false :=
  tailFile_emits_appended_bytes_within_cap [1, 2, 3] ⟨false, false, 3⟩
    [⟨false, 5, false, [1, 2, 3, 4, 5, 6]⟩, ⟨false, 7, false, [1, 2, 3, 4, 5, 6, 7]⟩]
    rfl rfl rfl
    ⟨rfl, rfl, by decide, by decide, ⟨[4, 5, 6], rfl⟩,
      rfl, rfl, by decide, by decide, ⟨[7], rfl⟩, trivial⟩
    ⟨by decide, by decide, trivial⟩

/-- C1 fails on the code: an empty file to which `maxRW + 1` bytes of value 1
are appended before the first poll only grows by appends and no call fails,
yet the one `Read` of line 95 delivers `maxRW` bytes and its count is
discarded: `tailFile` sends the `maxRW` bytes followed by a zero byte and
moves the offset past the byte it never read, so the concatenated messages
are not the appended bytes. -/
theorem tailFile_large_append_zero_tail :
    GrowsByAppends [] [largeAppend] ∧
      (tailFile ⟨false, false, 0⟩ [largeAppend]).emitted =
        [List.replicate maxRW 1 ++ [0]] ∧
      (tailFile ⟨false, false, 0⟩ [largeAppend]).offset = maxRW + 1 ∧
      (tailFile ⟨false, false, 0⟩ [largeAppend]).emitted.flatten ≠
        ((lastContent [] [largeAppend]).drop 0).take (lastSize 0 [largeAppend] - 0) := by
  have hbuf : (fileRead largeAppend.content 0 (maxRW + 1)).buf =
      List.replicate maxRW 1 ++ [0] := by
    rw [fileRead_capped _ _ _ (by simp [largeAppend]) (Nat.lt_succ_self _)]
    have e1 : maxRW + 1 - maxRW = 1 := by omega
    have e2 : min maxRW (maxRW + 1) = maxRW := Nat.min_eq_left (Nat.le_succ _)
    simp only [largeAppend, List.drop_zero, List.take_replicate, e1, e2]
    rfl
  have hrun : tailFile ⟨false, false, 0⟩ [largeAppend] =
      { offset := maxRW + 1, emitted := [List.replicate maxRW 1 ++ [0]], fatal := false } := by
    have hst : largeAppend.statSize = maxRW + 1 := rfl
    have h1 : largeAppend.statFails = false := rfl
    have h2 : largeAppend.readFails = false := rfl
    have hgt2 : maxRW + 1 > 0 := Nat.succ_pos _
    simp only [tailFile, tailLoop, List.foldl, pollCycle, Bool.false_eq_true, if_false, h1, h2,
      Nat.sub_zero, hst, hbuf, List.nil_append, if_pos hgt2]
  refine ⟨⟨rfl, rfl, Nat.zero_le _, by simp [largeAppend], ⟨_, rfl⟩, trivial⟩, ?_, ?_, ?_⟩
  · rw [hrun]
  · rw [hrun]
  · rw [hrun]
    intro h
    have e : ((lastContent [] [largeAppend]).drop 0).take (lastSize 0 [largeAppend] - 0) =
        List.replicate maxRW 1 ++ [1] := by
      simp only [lastContent, lastSize, largeAppend, List.drop_zero, Nat.sub_zero,
        List.take_replicate, Nat.min_self]
      exact List.replicate_succ' _ _
    rw [e] at h
    simp only [List.flatten_cons, List.flatten_nil, List.append_nil] at h
    have h3 := List.append_cancel_left h
    exact absurd h3 (by decide)

/-- C6: a poll cycle that observes a size equal to the offset sends nothing and
leaves the offset alone; every message `tailFile` ever sends is non-empty, and
a message sent by a cycle has length observed size minus offset. -/
theorem tailFile_no_growth_no_message (st : Startup) (polls : List Poll) (p : Poll) :
    (p.statSize = (tailFile st polls).offset →
        (tailFile st (polls ++ [p])).emitted = (tailFile st polls).emitted ∧
        (tailFile st (polls ++ [p])).offset = (tailFile st polls).offset) ∧
      (∀ m ∈ (tailFile st polls).emitted, 0 < m.length) ∧
      (∀ m, (tailFile st (polls ++ [p])).emitted = (tailFile st polls).emitted ++ [m] →
        m.length = p.statSize - (tailFile st polls).offset ∧ 0 < m.length) := by
  refine ⟨?_, tailFile_emitted_nonempty st polls, ?_⟩
  · intro h
    rw [tailFile_snoc]
    unfold pollCycle
    split_ifs with h1 h2 h3 h4 <;> simp
    all_goals omega
  · intro m
    rw [tailFile_snoc]
    unfold pollCycle
    split_ifs with h1 h2 h3 h4
    · intro h; simp at h
    · intro h; simp at h
    · intro h; simp at h
    · intro h
      have e : (fileRead p.content (tailFile st polls).offset
          (p.statSize - (tailFile st polls).offset)).buf = m := by simpa using h
      rw [← e, fileRead_buf_length]
      omega
    · intro h; simp at h

/-- The claim C6 at a 3-byte file polled once at size 3. -/
theorem tailFile_no_growth_no_message_witness :
    ((tailFile ⟨false, false, 3⟩ ([] ++ [⟨false, 3, false, [1, 2, 3]⟩])).emitted
        = (tailFile ⟨false, false, 3⟩ []).emitted ∧
      (tailFile ⟨false, false, 3⟩ ([] ++ [⟨false, 3, false, [1, 2, 3]⟩])).offset
        = (tailFile ⟨false, false, 3⟩ []).offset) ∧
      (([4, 5] : Message).length = 5 - (tailFile ⟨false, false, 3⟩ []).offset ∧
        0 < ([4, 5] : Message).length) :=
  ⟨(tailFile_no_growth_no_message ⟨false, false, 3⟩ [] ⟨false, 3, false, [1, 2, 3]⟩).1 rfl,
    (tailFile_no_growth_no_message ⟨false, false, 3⟩ [] ⟨false, 5, false, [1, 2, 3, 4, 5]⟩).2.2
      [4, 5] rfl⟩

/-- C7: when `os.Open` or the first `Stat` fails, `tailFile` ends fatally and
has sent nothing; when in a poll cycle `Stat` fails, or the read of the new
bytes fails with an error other than `io.EOF`, `tailFile` ends fatally and
neither that cycle nor any later one sends a message. -/
theorem tailFile_failure_is_fatal (st : Startup) (polls : List Poll) (p : Poll)
    (later : List Poll) :
    ((st.openFails = true ∨ st.statFails = true) →
        (tailFile st polls).fatal = true ∧ (tailFile st polls).emitted = []) ∧
      ((p.statFails = true ∨
          (p.statSize > (tailFile st polls).offset ∧ p.readFails = true)) →
        (tailFile st (polls ++ p :: later)).fatal = true ∧
        (tailFile st (polls ++ p :: later)).emitted = (tailFile st polls).emitted) := by
  constructor
  · intro h
    unfold tailFile
    rcases h with h | h
    · simp [h]
    · by_cases ho : st.openFails = true <;> simp [h, ho]
  · intro h
    have hp : (pollCycle (tailFile st polls) p).fatal = true ∧
        (pollCycle (tailFile st polls) p).emitted = (tailFile st polls).emitted := by
      unfold pollCycle
      rcases h with h | ⟨h1, h2⟩
      · by_cases hf : (tailFile st polls).fatal = true <;> simp [h, hf]
      · by_cases hf : (tailFile st polls).fatal = true
        · simp [hf]
        · by_cases hs : p.statFails = true <;> simp [hf, hs, h1, h2]
    rw [tailFile_append, tailLoop_cons, tailLoop_fatal _ _ hp.1]
    exact hp

/-- The claim C7 at a failing open, and at a read error in the second cycle
followed by a cycle in which the file has grown further. -/
theorem tailFile_failure_is_fatal_witness :
    ((tailFile ⟨true, false, 0⟩ [⟨false, 2, false, [1, 2]⟩]).fatal = true ∧
        (tailFile ⟨true, false, 0⟩ [⟨false, 2, false, [1, 2]⟩]).emitted = []) ∧
      ((tailFile ⟨false, false, 1⟩ ([⟨false, 2, false, [1, 2]⟩] ++
          ⟨false, 3, true, [1, 2, 3]⟩ :: [⟨false, 4, false, [1, 2, 3, 4]⟩])).fatal = true ∧
        (tailFile ⟨false, false, 1⟩ ([⟨false, 2, false, [1, 2]⟩] ++
          ⟨false, 3, true, [1, 2, 3]⟩ :: [⟨false, 4, false, [1, 2, 3, 4]⟩])).emitted =
          (tailFile ⟨false, false, 1⟩ [⟨false, 2, false, [1, 2]⟩]).emitted) :=
  ⟨(tailFile_failure_is_fatal ⟨true, false, 0⟩ [⟨false, 2, false, [1, 2]⟩]
      ⟨false, 0, false, []⟩ []).1 (Or.inl rfl),
    (tailFile_failure_is_fatal ⟨false, false, 1⟩ [⟨false, 2, false, [1, 2]⟩]
      ⟨false, 3, true, [1, 2, 3]⟩ [⟨false, 4, false, [1, 2, 3, 4]⟩]).2
      (Or.inr ⟨by decide, rfl⟩)⟩

/-- C9: the offset of `tailFile` never decreases, whatever sizes the polls
observe (shrinking files included), and it starts at the size recorded at
startup. -/
theorem tailFile_offset_monotone (st : Startup) (polls more : List Poll) :
    (tailFile st polls).offset ≤ (tailFile st (polls ++ more)).offset ∧
      (st.openFails = false → st.statFails = false →
        (tailFile st []).offset = st.size ∧ st.size ≤ (tailFile st polls).offset) := by
  constructor
  · rw [tailFile_append]
    exact tailLoop_offset_le _ _
  · intro h1 h2
    have e : tailFile st [] = { offset := st.size, emitted := [], fatal := false } := by
      simp [tailFile, h1, h2, tailLoop]
    have := tailLoop_offset_le (tailFile st []) polls
    rw [← tailFile_append, List.nil_append, e] at this
    exact ⟨by rw [e], this⟩

/-- The claim C9 at a 5-byte file that is truncated to 2 bytes and grows
again. -/
theorem tailFile_offset_monotone_witness :
    (tailFile ⟨false, false, 5⟩ []).offset = 5 ∧
      5 ≤ (tailFile ⟨false, false, 5⟩
        [⟨false, 2, false, [9, 9]⟩, ⟨false, 7, false, [9, 9, 8, 8, 8, 6, 7]⟩]).offset :=
  (tailFile_offset_monotone ⟨false, false, 5⟩
    [⟨false, 2, false, [9, 9]⟩, ⟨false, 7, false, [9, 9, 8, 8, 8, 6, 7]⟩] []).2 rfl rfl

/-- C10: a poll cycle that observes a size below the offset sends nothing and
keeps the offset; and the messages of all later cycles do not depend on the
file bytes below that offset: two continuations that differ only there send
the same messages. -/
theorem tailFile_truncation_keeps_offset (st : Startup) (polls : List Poll) (p : Poll)
    (later later2 : List Poll) (hstat : p.statFails = false)
    (hlt : p.statSize < (tailFile st polls).offset) :
    (tailFile st (polls ++ [p])).emitted = (tailFile st polls).emitted ∧
      (tailFile st (polls ++ [p])).offset = (tailFile st polls).offset ∧
      (AgreeFrom (tailFile st polls).offset later later2 →
        (tailFile st (polls ++ p :: later)).emitted =
          (tailFile st (polls ++ p :: later2)).emitted) := by
  have hp : pollCycle (tailFile st polls) p = tailFile st polls := by
    unfold pollCycle
    by_cases hf : (tailFile st polls).fatal = true
    · simp [hf]
    · have : ¬ p.statSize > (tailFile st polls).offset := by omega
      simp [hf, hstat, this]
  refine ⟨by rw [tailFile_snoc, hp], by rw [tailFile_snoc, hp], ?_⟩
  intro h
  rw [tailFile_append, tailFile_append, tailLoop_cons, tailLoop_cons, hp,
    tailLoop_agree _ _ later later2 (Nat.le_refl _) h]

/-- The claim C10 at a 5-byte file truncated to 2 bytes and then grown to 7:
only the bytes at positions 5 and 6 are sent, whatever stands below. -/
theorem tailFile_truncation_keeps_offset_witness :
    (tailFile ⟨false, false, 5⟩ ([] ++ [⟨false, 2, false, [9, 9]⟩])).emitted =
        (tailFile ⟨false, false, 5⟩ []).emitted ∧
      (tailFile ⟨false, false, 5⟩ ([] ++ [⟨false, 2, false, [9, 9]⟩])).offset =
        (tailFile ⟨false, false, 5⟩ []).offset ∧
      (tailFile ⟨false, false, 5⟩ ([] ++ ⟨false, 2, false, [9, 9]⟩ ::
          [⟨false, 7, false, [9, 9, 8, 8, 8, 6, 7]⟩])).emitted =
        (tailFile ⟨false, false, 5⟩ ([] ++ ⟨false, 2, false, [9, 9]⟩ ::
          [⟨false, 7, false, [1, 1, 1, 1, 1, 6, 7]⟩])).emitted :=
  have h := tailFile_truncation_keeps_offset ⟨false, false, 5⟩ [] ⟨false, 2, false, [9, 9]⟩
    [⟨false, 7, false, [9, 9, 8, 8, 8, 6, 7]⟩] [⟨false, 7, false, [1, 1, 1, 1, 1, 6, 7]⟩]
    rfl (by decide)
  ⟨h.1, h.2.1, h.2.2 ⟨rfl, rfl, rfl, rfl, trivial⟩⟩

/-! ## Properties of the registry and the broadcaster -/

theorem mem_clientsDelete (c x : Handle) (r : List Handle) :
    x ∈ clientsDelete c r ↔ x ∈ r ∧ x ≠ c := by
  simp [clientsDelete]

theorem mem_clientsAdd (c x : Handle) (r : List Handle) :
    x ∈ clientsAdd c r ↔ x ∈ r ∨ x = c := by
  unfold clientsAdd
  split_ifs with h
  · constructor
    · exact Or.inl
    · rintro (h1 | h1)
      · exact h1
      · rw [h1]; exact h
  · simp

theorem nodup_clientsDelete (c : Handle) (r : List Handle) (h : r.Nodup) :
    (clientsDelete c r).Nodup :=
  List.Nodup.filter _ h

theorem nodup_clientsAdd (c : Handle) (r : List Handle) (h : r.Nodup) :
    (clientsAdd c r).Nodup := by
  unfold clientsAdd
  split_ifs with hc
  · exact h
  · rw [List.nodup_append]
    refine ⟨h, List.nodup_singleton c, ?_⟩
    intro x hx hx2
    rw [List.mem_singleton] at hx2
    exact hc (hx2 ▸ hx)

theorem clientsDelete_of_not_mem (c : Handle) (r : List Handle) (h : c ∉ r) :
    clientsDelete c r = r := by
  unfold clientsDelete
  rw [List.filter_eq_self]
  intro a ha
  simp only [decide_eq_true_eq]
  intro e
  exact h (e ▸ ha)

theorem rangeClients_pc (msg : Message) (ok : Handle → Bool) (ks : List Handle) (s : Server) :
    (rangeClients msg ok ks s).pc = s.pc := by
  induction ks generalizing s with
  | nil => rfl
  | cons k ks ih =>
      unfold rangeClients
      split_ifs <;> rw [ih]

theorem rangeClients_clients (msg : Message) (ok : Handle → Bool) (ks : List Handle)
    (s : Server) :
    (rangeClients msg ok ks s).clients =
      s.clients.filter (fun c => decide (c ∉ ks) || ok c) := by
  induction ks generalizing s with
  | nil =>
      simp [rangeClients]
  | cons k ks ih =>
      unfold rangeClients
      split_ifs with h1 h2
      · rw [ih]
        apply List.filter_congr
        intro x _
        by_cases e : x = k
        · subst e; simp [h2]
        · simp [e]
      · rw [ih]
        simp only [clientsDelete, List.filter_filter]
        apply List.filter_congr
        intro x _
        by_cases e : x = k
        · subst e; simp [h2]
        · simp [e]
      · rw [ih]
        apply List.filter_congr
        intro x hx
        have e : x ≠ k := fun e => h1 (e ▸ hx)
        simp [e]

theorem rangeClients_log (msg : Message) (ok : Handle → Bool) (ks : List Handle)
    (s : Server) (hnd : ks.Nodup) (hin : ∀ k ∈ ks, k ∈ s.clients) :
    (rangeClients msg ok ks s).log = s.log ++ ks.flatMap (visitEvents msg ok) := by
  induction ks generalizing s with
  | nil => simp [rangeClients]
  | cons k ks ih =>
      have hk : k ∈ s.clients := hin k (List.mem_cons_self _ _)
      obtain ⟨hk2, hnd2⟩ := List.nodup_cons.mp hnd
      unfold rangeClients
      rw [if_pos hk]
      split_ifs with h2
      · rw [ih _ hnd2]
        · simp [visitEvents, h2]
        · exact fun x hx => hin x (List.mem_cons_of_mem _ hx)
      · rw [ih _ hnd2]
        · simp [visitEvents, h2]
        · intro x hx
          show x ∈ clientsDelete k s.clients
          rw [mem_clientsDelete]
          exact ⟨hin x (List.mem_cons_of_mem _ hx), fun e => hk2 (e ▸ hx)⟩

theorem broadcastMessages_clients (msg : Message) (ok : Handle → Bool) (s : Server) :
    (broadcastMessages msg ok s).clients = s.clients.filter ok := by
  unfold broadcastMessages
  rw [rangeClients_clients]
  apply List.filter_congr
  intro x hx
  simp [hx]

theorem broadcastMessages_log (msg : Message) (ok : Handle → Bool) (s : Server)
    (hnd : s.clients.Nodup) :
    (broadcastMessages msg ok s).log = s.log ++ s.clients.flatMap (visitEvents msg ok) :=
  rangeClients_log msg ok s.clients s hnd (fun _ h => h)

theorem broadcastMessages_pc (msg : Message) (ok : Handle → Bool) (s : Server) :
    (broadcastMessages msg ok s).pc = s.pc :=
  rangeClients_pc msg ok s.clients s

theorem writesTo_append (c : Handle) (l1 l2 : List ConnEvent) :
    writesTo c (l1 ++ l2) = writesTo c l1 ++ writesTo c l2 := by
  simp [writesTo, List.filterMap_append]

theorem framesTo_append (c : Handle) (l1 l2 : List ConnEvent) :
    framesTo c (l1 ++ l2) = framesTo c l1 ++ framesTo c l2 := by
  simp [framesTo, List.filterMap_append]

theorem closesOf_append (c : Handle) (l1 l2 : List ConnEvent) :
    closesOf c (l1 ++ l2) = closesOf c l1 ++ closesOf c l2 := by
  simp [closesOf, List.filterMap_append]

theorem writesTo_visits (msg : Message) (ok : Handle → Bool) (c : Handle) (ks : List Handle)
    (hnd : ks.Nodup) :
    writesTo c (ks.flatMap (visitEvents msg ok)) = if c ∈ ks then [msg] else [] := by
  induction ks with
  | nil => simp [writesTo]
  | cons k ks ih =>
      obtain ⟨hk, hnd2⟩ := List.nodup_cons.mp hnd
      rw [List.flatMap_cons, writesTo_append, ih hnd2]
      by_cases e : k = c
      · subst e
        by_cases h : ok k <;> simp [visitEvents, writesTo, h, hk]
      · have e2 : ¬ c = k := fun h => e h.symm
        by_cases h : ok k <;> simp [visitEvents, writesTo, h, e, e2]

theorem framesTo_visits (msg : Message) (ok : Handle → Bool) (c : Handle) (ks : List Handle)
    (hnd : ks.Nodup) :
    framesTo c (ks.flatMap (visitEvents msg ok)) =
      if c ∈ ks ∧ ok c = true then [msg] else [] := by
  induction ks with
  | nil => simp [framesTo]
  | cons k ks ih =>
      obtain ⟨hk, hnd2⟩ := List.nodup_cons.mp hnd
      rw [List.flatMap_cons, framesTo_append, ih hnd2]
      by_cases e : k = c
      · subst e
        by_cases h : ok k <;> simp [visitEvents, framesTo, h, hk]
      · have e2 : ¬ c = k := fun h => e h.symm
        by_cases h : ok k <;> simp [visitEvents, framesTo, h, e, e2]

theorem closesOf_visits (msg : Message) (ok : Handle → Bool) (c : Handle) (ks : List Handle)
    (hnd : ks.Nodup) :
    closesOf c (ks.flatMap (visitEvents msg ok)) =
      if c ∈ ks ∧ ok c = false then [Closer.broadcaster] else [] := by
  induction ks with
  | nil => simp [closesOf]
  | cons k ks ih =>
      obtain ⟨hk, hnd2⟩ := List.nodup_cons.mp hnd
      rw [List.flatMap_cons, closesOf_append, ih hnd2]
      by_cases e : k = c
      · subst e
        by_cases h : ok k <;> simp [visitEvents, closesOf, h, hk]
      · have e2 : ¬ c = k := fun h => e h.symm
        by_cases h : ok k <;> simp [visitEvents, closesOf, h, e, e2]


theorem run_nil (s : Server) : run s [] = s := rfl

theorem run_cons (s : Server) (a : Action) (acts : List Action) :
    run s (a :: acts) = run (step s a) acts := rfl

theorem step_nodup (s : Server) (a : Action) (h : s.clients.Nodup) :
    (step s a).clients.Nodup := by
  cases a with
  | connect c =>
      simp only [step]
      split_ifs
      · exact nodup_clientsAdd c _ h
      · exact h
  | readMessage c err =>
      simp only [step]
      split_ifs
      · exact nodup_clientsDelete c _ h
      · exact h
      · exact h
  | closeAfterRead c =>
      simp only [step]
      split_ifs
      · exact h
      · exact h
  | deferredClose c =>
      simp only [step]
      split_ifs
      · exact h
      · exact h
  | broadcast msg failing =>
      simp only [step]
      rw [broadcastMessages_clients]
      exact List.Nodup.filter _ h

theorem run_nodup (s : Server) (acts : List Action) (h : s.clients.Nodup) :
    (run s acts).clients.Nodup := by
  induction acts generalizing s with
  | nil => exact h
  | cons a acts ih => exact ih _ (step_nodup s a h)

/-! ## The claims about the broadcaster and the registry -/

/-- C2: one iteration of `broadcastMessages` only appends to the log, and the
write attempts to a handle `c` it appends are exactly one write of `msg` when
`c` is in the registry at the start and none otherwise, whatever writes
fail. -/
theorem broadcastMessages_writes_each_once (msg : Message) (ok : Handle → Bool) (s : Server)
    (c : Handle) (hnd : s.clients.Nodup) :
    (broadcastMessages msg ok s).log.take s.log.length = s.log ∧
      writesTo c ((broadcastMessages msg ok s).log.drop s.log.length) =
        if c ∈ s.clients then [msg] else [] := by
  rw [broadcastMessages_log msg ok s hnd]
  refine ⟨by simp, ?_⟩
  rw [List.drop_left]
  exact writesTo_visits msg ok c s.clients hnd

/-- The claim C2 at a registry of three handles in which the write to the
first one fails. -/
theorem broadcastMessages_writes_each_once_witness :
    (broadcastMessages [7] (fun c => decide (c ≠ 1)) ⟨[1, 2, 3], [], fun _ => ReaderPc.reading⟩).log.take 0
        = [] ∧
      writesTo 3 ((broadcastMessages [7] (fun c => decide (c ≠ 1))
        ⟨[1, 2, 3], [], fun _ => ReaderPc.reading⟩).log.drop 0) =
        if 3 ∈ [1, 2, 3] then [[7]] else [] :=
  broadcastMessages_writes_each_once [7] (fun c => decide (c ≠ 1))
    ⟨[1, 2, 3], [], fun _ => ReaderPc.reading⟩ 3 (by decide)

/-- C3: after one iteration of `broadcastMessages` the registry is the old
registry restricted to the handles whose write succeeded, in particular no
handle is added; every registered handle has its write recorded with its
outcome; and `Close` is called, once and by the broadcaster, on exactly the
registered handles whose write failed. -/
theorem broadcastMessages_prunes_failed (msg : Message) (ok : Handle → Bool) (s : Server)
    (c : Handle) (hnd : s.clients.Nodup) :
    (broadcastMessages msg ok s).clients = s.clients.filter ok ∧
      (c ∈ (broadcastMessages msg ok s).clients ↔ c ∈ s.clients ∧ ok c = true) ∧
      (c ∈ s.clients →
        ConnEvent.write c msg (ok c) ∈ (broadcastMessages msg ok s).log.drop s.log.length) ∧
      closesOf c ((broadcastMessages msg ok s).log.drop s.log.length) =
        if c ∈ s.clients ∧ ok c = false then [Closer.broadcaster] else [] := by
  rw [broadcastMessages_log msg ok s hnd, List.drop_left, broadcastMessages_clients]
  refine ⟨rfl, List.mem_filter, ?_, closesOf_visits msg ok c s.clients hnd⟩
  intro hc
  rw [List.mem_flatMap]
  refine ⟨c, hc, ?_⟩
  by_cases h : ok c <;> simp [visitEvents, h]

/-- The claim C3 at a registry of three handles in which the write to the
first one fails. -/
theorem broadcastMessages_prunes_failed_witness :
    (broadcastMessages [7] (fun c => decide (c ≠ 1))
        ⟨[1, 2, 3], [], fun _ => ReaderPc.reading⟩).clients = [2, 3] ∧
      closesOf 1 ((broadcastMessages [7] (fun c => decide (c ≠ 1))
        ⟨[1, 2, 3], [], fun _ => ReaderPc.reading⟩).log.drop 0) = [Closer.broadcaster] :=
  have h := broadcastMessages_prunes_failed [7] (fun c => decide (c ≠ 1))
    ⟨[1, 2, 3], [], fun _ => ReaderPc.reading⟩ 1 (by decide)
  ⟨h.1, h.2.2.2⟩


/-- C8: deleting an absent handle changes nothing, deleting twice is deleting
once, adding twice is adding once, the registry of every execution holds no
handle twice; and when the reader loop and the broadcaster both remove a
handle whose write fails, in either order, the registry is the one the
broadcaster alone leaves, which is the registry with that single handle
deleted when no other write fails. -/
theorem clients_add_delete_idempotent (r : List Handle) (c : Handle) (acts : List Action)
    (msg : Message) (ok : Handle → Bool) (s : Server) :
    (c ∉ r → clientsDelete c r = r) ∧
      clientsDelete c (clientsDelete c r) = clientsDelete c r ∧
      clientsAdd c (clientsAdd c r) = clientsAdd c r ∧
      (run init acts).clients.Nodup ∧
      (s.pc c = ReaderPc.reading → ok c = false →
        (step (broadcastMessages msg ok s) (Action.readMessage c true)).clients =
            (broadcastMessages msg ok s).clients ∧
          (broadcastMessages msg ok (step s (Action.readMessage c true))).clients =
            (broadcastMessages msg ok s).clients ∧
          ((∀ x, x ≠ c → ok x = true) →
            (broadcastMessages msg ok s).clients = clientsDelete c s.clients)) := by
  refine ⟨clientsDelete_of_not_mem c r, ?_, ?_, run_nodup init acts List.nodup_nil, ?_⟩
  · exact clientsDelete_of_not_mem c _ (fun h => ((mem_clientsDelete c c r).mp h).2 rfl)
  · have h : c ∈ clientsAdd c r := (mem_clientsAdd c c r).mpr (Or.inr rfl)
    exact (show ∀ l : List Handle, c ∈ l → clientsAdd c l = l from
      fun l hl => by unfold clientsAdd; rw [if_pos hl]) _ h
  · intro hpc hok
    refine ⟨?_, ?_, ?_⟩
    · simp only [step, broadcastMessages_pc, hpc, if_true]
      apply clientsDelete_of_not_mem
      rw [broadcastMessages_clients, List.mem_filter]
      intro h
      rw [hok] at h
      exact Bool.false_ne_true h.2
    · simp only [step, hpc, if_true, broadcastMessages_clients]
      simp only [clientsDelete, List.filter_filter]
      apply List.filter_congr
      intro x _
      by_cases e : x = c
      · subst e; simp [hok]
      · simp [e]
    · intro hall
      rw [broadcastMessages_clients]
      unfold clientsDelete
      apply List.filter_congr
      intro x _
      by_cases e : x = c
      · subst e; simp [hok]
      · simp [e, hall x e]

/-- The claim C8 at the registry `[1, 2, 3]` and the handle 2, whose write
fails. -/
theorem clients_add_delete_idempotent_witness :
    clientsDelete 5 [1, 2, 3] = [1, 2, 3] ∧
      (step (broadcastMessages [7] (fun x => decide (x ≠ 2))
          ⟨[1, 2, 3], [], fun _ => ReaderPc.reading⟩) (Action.readMessage 2 true)).clients =
        (broadcastMessages [7] (fun x => decide (x ≠ 2))
          ⟨[1, 2, 3], [], fun _ => ReaderPc.reading⟩).clients ∧
      (broadcastMessages [7] (fun x => decide (x ≠ 2))
          (step ⟨[1, 2, 3], [], fun _ => ReaderPc.reading⟩ (Action.readMessage 2 true))).clients =
        (broadcastMessages [7] (fun x => decide (x ≠ 2))
          ⟨[1, 2, 3], [], fun _ => ReaderPc.reading⟩).clients ∧
      (broadcastMessages [7] (fun x => decide (x ≠ 2))
          ⟨[1, 2, 3], [], fun _ => ReaderPc.reading⟩).clients = clientsDelete 2 [1, 2, 3] :=
  have h := clients_add_delete_idempotent [1, 2, 3] 5 [] [7] (fun x => decide (x ≠ 2))
    ⟨[1, 2, 3], [], fun _ => ReaderPc.reading⟩
  have k := (clients_add_delete_idempotent [1, 2, 3] 2 [] [7] (fun x => decide (x ≠ 2))
    ⟨[1, 2, 3], [], fun _ => ReaderPc.reading⟩).2.2.2.2 rfl rfl
  ⟨h.1 (by decide), k.1, k.2.1, k.2.2 (fun x hx => by simp [hx])⟩


/-! ## The lifecycle of a connection -/

theorem closesOf_close (c k : Handle) (who : Closer) :
    closesOf c [ConnEvent.close k who] = if k = c then [who] else [] := by
  by_cases e : k = c <;> simp [closesOf, e]

theorem closers_length (l : List Closer) :
    l.length = l.count Closer.readerLoop + l.count Closer.deferred +
      l.count Closer.broadcaster := by
  induction l with
  | nil => rfl
  | cons a l ih =>
      cases a <;> simp [List.count_cons, ih] <;> omega

theorem lifecycleInv_init (c : Handle) : LifecycleInv init c := by
  simp [LifecycleInv, init, closesOf]

theorem lifecycleInv_broadcast (msg : Message) (ok : Handle → Bool) (s : Server) (c : Handle)
    (hnd : s.clients.Nodup) (h : LifecycleInv s c) :
    LifecycleInv (broadcastMessages msg ok s) c := by
  obtain ⟨h1, h2, h3, h4, h5⟩ := h
  have hl : closesOf c (broadcastMessages msg ok s).log = closesOf c s.log ++
      (if c ∈ s.clients ∧ ok c = false then [Closer.broadcaster] else []) := by
    rw [broadcastMessages_log msg ok s hnd, closesOf_append, closesOf_visits msg ok c _ hnd]
  have hm : c ∈ (broadcastMessages msg ok s).clients ↔ c ∈ s.clients ∧ ok c = true := by
    rw [broadcastMessages_clients, List.mem_filter]
  unfold LifecycleInv
  rw [hl, broadcastMessages_pc]
  by_cases hc : c ∈ s.clients
  · by_cases ho : ok c = true
    · have hm2 : c ∈ (broadcastMessages msg ok s).clients := hm.mpr ⟨hc, ho⟩
      simp only [hc, ho, hm2, if_true, true_and, Bool.true_eq_false, if_false, List.append_nil,
        and_false]
      simp only [hc, if_true] at h4
      exact ⟨fun _ => h1 hc, h2, h3, h4, h5⟩
    · have ho2 : ok c = false := by simpa using ho
      have hm2 : c ∉ (broadcastMessages msg ok s).clients := fun hh => ho (hm.mp hh).2
      simp only [hc, ho2, hm2, if_true, if_false, and_self, List.count_append]
      simp only [hc, if_true] at h4
      have hidle : s.pc c ≠ ReaderPc.idle := by rw [h1 hc]; decide
      refine ⟨fun hh => absurd hh (by simp), ?_, ?_, ?_, fun hh => absurd hh hidle⟩
      · simpa using h2
      · simpa using h3
      · simp; omega
  · have hm2 : c ∉ (broadcastMessages msg ok s).clients := fun hh => hc (hm.mp hh).1
    simp only [hc, hm2, false_and, if_false, List.append_nil]
    simp only [hc, if_false] at h4
    exact ⟨fun hh => absurd hh (by simp), h2, h3, h4, h5⟩


theorem lifecycleInv_step (s : Server) (a : Action) (c : Handle) (hnd : s.clients.Nodup)
    (h : LifecycleInv s c) : LifecycleInv (step s a) c := by
  cases a with
  | broadcast msg failing => exact lifecycleInv_broadcast msg _ s c hnd h
  | connect k =>
      simp only [step]
      split_ifs with hk
      · obtain ⟨h1, h2, h3, h4, h5⟩ := h
        unfold LifecycleInv
        by_cases e : k = c
        · subst e
          have hcl := h5 hk
          have hmem : k ∈ clientsAdd k s.clients := (mem_clientsAdd k k _).mpr (Or.inr rfl)
          simp [hcl, hmem]
        · have hmem : c ∈ clientsAdd k s.clients ↔ c ∈ s.clients := by
            rw [mem_clientsAdd]
            exact ⟨fun hh => hh.resolve_right (fun x => e x.symm), Or.inl⟩
          have hpc : Function.update s.pc k ReaderPc.reading c = s.pc c :=
            Function.update_noteq (fun x => e x.symm) _ _
          simp only [hmem, hpc]
          exact ⟨h1, h2, h3, h4, h5⟩
      · exact h
  | readMessage k err =>
      simp only [step]
      split_ifs with hk herr
      · obtain ⟨h1, h2, h3, h4, h5⟩ := h
        unfold LifecycleInv
        by_cases e : k = c
        · subst e
          have hmem : k ∉ clientsDelete k s.clients := fun hh =>
            ((mem_clientsDelete k k _).mp hh).2 rfl
          simp only [hk] at h2 h3
          simp only [hmem, Function.update_same, if_false, false_implies, true_and]
          refine ⟨by simpa using h2, by simpa using h3, ?_, fun hh => absurd hh (by decide)⟩
          have : (if k ∈ s.clients then 1 else 0) ≥ 0 := Nat.zero_le _
          omega
        · have hmem : c ∈ clientsDelete k s.clients ↔ c ∈ s.clients := by
            rw [mem_clientsDelete]
            exact ⟨fun hh => hh.1, fun hh => ⟨hh, fun x => e x.symm⟩⟩
          have hpc : Function.update s.pc k ReaderPc.deleted c = s.pc c :=
            Function.update_noteq (fun x => e x.symm) _ _
          simp only [hmem, hpc]
          exact ⟨h1, h2, h3, h4, h5⟩
      · exact h
      · exact h
  | closeAfterRead k =>
      simp only [step]
      split_ifs with hk
      · obtain ⟨h1, h2, h3, h4, h5⟩ := h
        unfold LifecycleInv
        by_cases e : k = c
        · subst e
          have hmem : k ∉ s.clients := fun hh => by
            rw [h1 hh] at hk; exact absurd hk (by decide)
          simp only [hk] at h2 h3
          simp only [hmem, if_false] at h4
          simp only [closesOf_append, closesOf_close, if_true, List.count_append,
            Function.update_same, hmem, if_false, false_implies, true_and]
          refine ⟨?_, ?_, ?_, fun hh => absurd hh (by decide)⟩
          · simp at h2; simp [h2]
          · simp at h3; simp [h3]
          · simpa using h4
        · have hpc : Function.update s.pc k ReaderPc.closed c = s.pc c :=
            Function.update_noteq (fun x => e x.symm) _ _
          simp only [closesOf_append, closesOf_close, e, if_false, List.append_nil, hpc]
          exact ⟨h1, h2, h3, h4, h5⟩
      · exact h
  | deferredClose k =>
      simp only [step]
      split_ifs with hk
      · obtain ⟨h1, h2, h3, h4, h5⟩ := h
        unfold LifecycleInv
        by_cases e : k = c
        · subst e
          have hmem : k ∉ s.clients := fun hh => by
            rw [h1 hh] at hk; exact absurd hk (by decide)
          simp only [hk] at h2 h3
          simp only [hmem, if_false] at h4
          simp only [closesOf_append, closesOf_close, if_true, List.count_append,
            Function.update_same, hmem, if_false, false_implies, true_and]
          refine ⟨?_, ?_, ?_, fun hh => absurd hh (by decide)⟩
          · simp at h2; simp [h2]
          · simp at h3; simp [h3]
          · simpa using h4
        · have hpc : Function.update s.pc k ReaderPc.returned c = s.pc c :=
            Function.update_noteq (fun x => e x.symm) _ _
          simp only [closesOf_append, closesOf_close, e, if_false, List.append_nil, hpc]
          exact ⟨h1, h2, h3, h4, h5⟩
      · exact h

theorem lifecycleInv_run (s : Server) (acts : List Action) (c : Handle)
    (hnd : s.clients.Nodup) (h : LifecycleInv s c) : LifecycleInv (run s acts) c := by
  induction acts generalizing s with
  | nil => exact h
  | cons a acts ih =>
      rw [run_cons]
      exact ih _ (step_nodup s a hnd) (lifecycleInv_step s a c hnd h)


theorem step_connect_idle (s : Server) (k : Handle) (hk : s.pc k = ReaderPc.idle) :
    step s (Action.connect k) =
      { s with clients := clientsAdd k s.clients
               pc := Function.update s.pc k ReaderPc.reading } := by
  simp [step, hk]

theorem step_connect_busy (s : Server) (k : Handle) (hk : s.pc k ≠ ReaderPc.idle) :
    step s (Action.connect k) = s := by
  simp [step, hk]

theorem broadcastMessages_all_ok (msg : Message) (s : Server) (c : Handle) :
    c ∈ (broadcastMessages msg (fun x => decide (x ∉ ([] : List Handle))) s).clients ↔
      c ∈ s.clients := by
  rw [broadcastMessages_clients, List.mem_filter]
  simp

theorem quiet_step_joined (s : Server) (a : Action) (c : Handle)
    (hj : c ∈ s.clients ↔ s.pc c ≠ ReaderPc.idle) (hqa : Quiet a = true) :
    c ∈ (step s a).clients ↔ (step s a).pc c ≠ ReaderPc.idle := by
  cases a with
  | connect k =>
      by_cases hk : s.pc k = ReaderPc.idle
      · rw [step_connect_idle s k hk]
        by_cases e : k = c
        · subst e
          have hmem : k ∈ clientsAdd k s.clients := (mem_clientsAdd k k _).mpr (Or.inr rfl)
          simp [hmem]
        · have hmem : c ∈ clientsAdd k s.clients ↔ c ∈ s.clients := by
            rw [mem_clientsAdd]
            exact ⟨fun hh => hh.resolve_right (fun x => e x.symm), Or.inl⟩
          have hpc : Function.update s.pc k ReaderPc.reading c = s.pc c :=
            Function.update_noteq (fun x => e x.symm) _ _
          simp only [hmem, hpc]
          exact hj
      · rw [step_connect_busy s k hk]
        exact hj
  | readMessage k err =>
      have herr : err = false := by simpa [Quiet] using hqa
      subst herr
      simpa [step] using hj
  | closeAfterRead k => simp [Quiet] at hqa
  | deferredClose k => simp [Quiet] at hqa
  | broadcast msg failing =>
      have hf : failing = [] := by simpa [Quiet] using hqa
      subst hf
      simp only [step]
      rw [broadcastMessages_all_ok, broadcastMessages_pc]
      exact hj

theorem quiet_step_frames (s : Server) (a : Action) (acts : List Action) (c : Handle)
    (hnd : s.clients.Nodup) (hj : c ∈ s.clients ↔ s.pc c ≠ ReaderPc.idle)
    (hqa : Quiet a = true) :
    framesTo c (step s a).log ++
        (if c ∈ (step s a).clients then broadcastsOf acts else broadcastsAfterJoin c acts) =
      framesTo c s.log ++
        (if c ∈ s.clients then broadcastsOf (a :: acts)
          else broadcastsAfterJoin c (a :: acts)) := by
  cases a with
  | connect k =>
      by_cases hk : s.pc k = ReaderPc.idle
      · rw [step_connect_idle s k hk]
        by_cases e : k = c
        · subst e
          have hmem : k ∈ clientsAdd k s.clients := (mem_clientsAdd k k _).mpr (Or.inr rfl)
          have hnot : k ∉ s.clients := fun hh => (hj.mp hh) hk
          simp [hmem, hnot, broadcastsAfterJoin, broadcastsOf]
        · have hmem : c ∈ clientsAdd k s.clients ↔ c ∈ s.clients := by
            rw [mem_clientsAdd]
            exact ⟨fun hh => hh.resolve_right (fun x => e x.symm), Or.inl⟩
          simp [hmem, broadcastsAfterJoin, broadcastsOf, e]
      · rw [step_connect_busy s k hk]
        by_cases e : k = c
        · subst e
          have hmem : k ∈ s.clients := hj.mpr hk
          simp [hmem, broadcastsOf]
        · simp [broadcastsAfterJoin, broadcastsOf, e]
  | readMessage k err =>
      have herr : err = false := by simpa [Quiet] using hqa
      subst herr
      simp [step, broadcastsAfterJoin, broadcastsOf]
  | closeAfterRead k => simp [Quiet] at hqa
  | deferredClose k => simp [Quiet] at hqa
  | broadcast msg failing =>
      have hf : failing = [] := by simpa [Quiet] using hqa
      subst hf
      have hm := broadcastMessages_all_ok msg s c
      simp only [step]
      rw [broadcastMessages_log _ _ _ hnd, framesTo_append, framesTo_visits _ _ _ _ hnd]
      by_cases hc : c ∈ s.clients
      · rw [if_pos (hm.mpr hc), if_pos hc]
        simp [hc, broadcastsOf]
      · rw [if_neg (fun hh => hc (hm.mp hh)), if_neg hc]
        simp [hc, broadcastsAfterJoin]

theorem framesTo_run_quiet (s : Server) (acts : List Action) (c : Handle)
    (hnd : s.clients.Nodup) (hj : c ∈ s.clients ↔ s.pc c ≠ ReaderPc.idle)
    (hq : ∀ a ∈ acts, Quiet a = true) :
    framesTo c (run s acts).log = framesTo c s.log ++
      (if c ∈ s.clients then broadcastsOf acts else broadcastsAfterJoin c acts) := by
  induction acts generalizing s with
  | nil => simp [run, broadcastsOf, broadcastsAfterJoin]
  | cons a acts ih =>
      have hq2 : ∀ b ∈ acts, Quiet b = true := fun b hb => hq b (List.mem_cons_of_mem _ hb)
      have hqa : Quiet a = true := hq a (List.mem_cons_self _ _)
      rw [run_cons, ih (step s a) (step_nodup s a hnd) (quiet_step_joined s a c hj hqa) hq2]
      exact quiet_step_frames s a acts c hnd hj hqa

/-! ## The claims about the lifecycle of a connection -/

/-- C4, as the code has it: over any execution `Close` is called on a handle
at most once by the reader loop, at most once by the deferred cleanup and at
most once by the broadcaster, so at most three times; once its handler has
returned, the reader loop and the deferred cleanup have each called it exactly
once (at least two calls) and the handle is not in the registry. -/
theorem close_calls_per_handle (acts : List Action) (c : Handle) :
    (closesOf c (run init acts).log).count Closer.readerLoop ≤ 1 ∧
      (closesOf c (run init acts).log).count Closer.deferred ≤ 1 ∧
      (closesOf c (run init acts).log).count Closer.broadcaster ≤ 1 ∧
      (closesOf c (run init acts).log).length ≤ 3 ∧
      ((run init acts).pc c = ReaderPc.returned →
        (closesOf c (run init acts).log).count Closer.readerLoop = 1 ∧
        (closesOf c (run init acts).log).count Closer.deferred = 1 ∧
        2 ≤ (closesOf c (run init acts).log).length ∧
        c ∉ (run init acts).clients) := by
  obtain ⟨h1, h2, h3, h4, _⟩ :=
    lifecycleInv_run init acts c List.nodup_nil (lifecycleInv_init c)
  have hlen := closers_length (closesOf c (run init acts).log)
  have a1 : (closesOf c (run init acts).log).count Closer.readerLoop ≤ 1 := by
    rw [h2]; split_ifs <;> omega
  have a2 : (closesOf c (run init acts).log).count Closer.deferred ≤ 1 := by
    rw [h3]; split_ifs <;> omega
  have a3 : (closesOf c (run init acts).log).count Closer.broadcaster ≤ 1 := by omega
  refine ⟨a1, a2, a3, by omega, ?_⟩
  intro hret
  rw [hret] at h2 h3
  simp only [or_true, if_true] at h2 h3
  refine ⟨h2, h3, by omega, ?_⟩
  intro hmem
  rw [h1 hmem] at hret
  exact absurd hret (by decide)

/-- The claim C4 at the execution in which the broadcaster's write
to handle 0 fails before its reader sees the error: three calls of `Close`. -/
theorem close_calls_per_handle_witness :
    (closesOf 0 (run init [Action.connect 0, Action.broadcast [1] [0],
        Action.readMessage 0 true, Action.closeAfterRead 0,
        Action.deferredClose 0]).log).count Closer.readerLoop = 1 ∧
      (closesOf 0 (run init [Action.connect 0, Action.broadcast [1] [0],
        Action.readMessage 0 true, Action.closeAfterRead 0,
        Action.deferredClose 0]).log).count Closer.deferred = 1 ∧
      2 ≤ (closesOf 0 (run init [Action.connect 0, Action.broadcast [1] [0],
        Action.readMessage 0 true, Action.closeAfterRead 0,
        Action.deferredClose 0]).log).length ∧
      0 ∉ (run init [Action.connect 0, Action.broadcast [1] [0],
        Action.readMessage 0 true, Action.closeAfterRead 0,
        Action.deferredClose 0]).clients :=
  (close_calls_per_handle [Action.connect 0, Action.broadcast [1] [0],
    Action.readMessage 0 true, Action.closeAfterRead 0, Action.deferredClose 0] 0).2.2.2.2 rfl

/-- C4 as stated fails: a client that connects and then disconnects, with no
broadcast at all, has `Close` called on its handle twice, by the reader loop
(line 46) and again by the deferred call (line 34). -/
theorem close_called_twice_on_disconnect :
    closesOf 0 (run init [Action.connect 0, Action.readMessage 0 true,
        Action.closeAfterRead 0, Action.deferredClose 0]).log =
      [Closer.readerLoop, Closer.deferred] := by
  decide

/-- C5: in an execution in which no client disconnects and every write
succeeds, the frames written to a client are exactly the messages broadcast
after its registration, in broadcast order. -/
theorem frames_are_broadcasts_after_join (acts : List Action) (c : Handle)
    (hq : ∀ a ∈ acts, Quiet a = true) :
    framesTo c (run init acts).log = broadcastsAfterJoin c acts := by
  have h := framesTo_run_quiet init acts c List.nodup_nil (by simp [init]) hq
  simpa [init, framesTo] using h

/-- The claim C5 at the scenario of the specification: A connects, a first
message is broadcast, B connects, a second message is broadcast; A receives
both in order and B receives the second message only. -/
theorem frames_are_broadcasts_after_join_witness :
    framesTo 1 (run init [Action.connect 1, Action.broadcast [40] [], Action.connect 2,
        Action.broadcast [10] []]).log = [[40], [10]] ∧
      framesTo 2 (run init [Action.connect 1, Action.broadcast [40] [], Action.connect 2,
        Action.broadcast [10] []]).log = [[10]] :=
  ⟨frames_are_broadcasts_after_join [Action.connect 1, Action.broadcast [40] [],
      Action.connect 2, Action.broadcast [10] []] 1 (by decide),
    frames_are_broadcasts_after_join [Action.connect 1, Action.broadcast [40] [],
      Action.connect 2, Action.broadcast [10] []] 2 (by decide)⟩

end LogStreamer
